import Mathlib

/-!
Verification of the multi-slot filesystem journal and the bounded pipe
implemented in kernel/pipe_new.c of this repository.  Each C function the
claims depend on is shallowly embedded as a Lean definition that follows
the source line by line; the theorems below settle the specification
claims against these definitions.
-/

namespace PipeNew

/-- Pipe buffer capacity, from the source: `#define PIPESIZE 2048`. -/
def PIPESIZE : Nat := 2048

/-- The counters and endpoint flags of `struct pipe`.  `nread` and `nwrite`
are the monotone byte counters of the source (C `uint`); their differences
never exceed `PIPESIZE`, so unbounded `Nat` counters agree with the
mod-2^32 values on every expression the code computes. -/
structure Pipe where
  nread : Nat
  nwrite : Nat
  readopen : Bool
  writeopen : Bool
deriving DecidableEq, Repr

/-- The byte count moved by one iteration of the `pipewrite` copy loop
(pipe_new.c lines 110-111): the minimum of the bytes remaining to write,
the free space `PIPESIZE - (nwrite - nread)`, and the contiguous space up
to the wrap point `PIPESIZE - nwrite % PIPESIZE`. -/
def writeDelta (p : Pipe) (rem : Nat) : Nat :=
  min (min rem (PIPESIZE - (p.nwrite - p.nread))) (PIPESIZE - p.nwrite % PIPESIZE)

/-- The byte count moved by one iteration of the `piperead` copy loop
(pipe_new.c lines 155-156): the minimum of the occupancy
`nwrite - nread`, the bytes remaining to read, and the contiguous bytes up
to the wrap point `PIPESIZE - nread % PIPESIZE`. -/
def readDelta (p : Pipe) (rem : Nat) : Nat :=
  min (min (p.nwrite - p.nread) rem) (PIPESIZE - p.nread % PIPESIZE)

/-- Pipe states reachable from `pipealloc` (counters zero, both endpoints
open) by the counter and flag mutations of `pipewrite`, `piperead` and
`pipeclose`.  A `pipewrite` iteration advances `nwrite` only when the
buffer is not full (the full branch just sleeps); a `piperead` iteration
advances `nread` only when the buffer is not empty (the empty check breaks
out); a failed `copyin`/`copyout` leaves the counters unchanged, so it
needs no constructor. -/
inductive PipeReach : Pipe → Prop where
  | init : PipeReach ⟨0, 0, true, true⟩
  | wstep (p : Pipe) (rem : Nat) (h : PipeReach p)
      (hnotfull : p.nwrite ≠ p.nread + PIPESIZE) :
      PipeReach { p with nwrite := p.nwrite + writeDelta p rem }
  | rstep (p : Pipe) (rem : Nat) (h : PipeReach p)
      (hnotempty : p.nread ≠ p.nwrite) :
      PipeReach { p with nread := p.nread + readDelta p rem }
  | closeW (p : Pipe) (h : PipeReach p) : PipeReach { p with writeopen := false }
  | closeR (p : Pipe) (h : PipeReach p) : PipeReach { p with readopen := false }

/-- C8: for every pipe and every sequence of pipewrite, piperead and
pipeclose operations, `0 ≤ nwrite - nread ≤ PIPESIZE` holds at every
observation point; each pipewrite copy step advances `nwrite` by a delta
bounded by the free space, and each piperead copy step advances `nread`
by a delta bounded by the occupancy. -/
theorem pipe_capacity_invariant (p : Pipe) (h : PipeReach p) :
    (p.nread ≤ p.nwrite ∧ p.nwrite - p.nread ≤ PIPESIZE) ∧
    (∀ rem, writeDelta p rem ≤ PIPESIZE - (p.nwrite - p.nread)) ∧
    (∀ rem, readDelta p rem ≤ p.nwrite - p.nread) := by
  have hwd : ∀ (q : Pipe) (rem : Nat),
      writeDelta q rem ≤ PIPESIZE - (q.nwrite - q.nread) :=
    fun q rem => le_trans (Nat.min_le_left _ _) (Nat.min_le_right _ _)
  have hrd : ∀ (q : Pipe) (rem : Nat),
      readDelta q rem ≤ q.nwrite - q.nread :=
    fun q rem => le_trans (Nat.min_le_left _ _) (Nat.min_le_left _ _)
  refine ⟨?_, fun rem => hwd p rem, fun rem => hrd p rem⟩
  induction h with
  | init => simp
  | wstep p rem h hnotfull ih =>
    have hd := hwd p rem
    show p.nread ≤ p.nwrite + writeDelta p rem ∧
      p.nwrite + writeDelta p rem - p.nread ≤ PIPESIZE
    omega
  | rstep p rem h hnotempty ih =>
    have hd := hrd p rem
    show p.nread + readDelta p rem ≤ p.nwrite ∧
      p.nwrite - (p.nread + readDelta p rem) ≤ PIPESIZE
    omega
  | closeW p h ih => exact ih
  | closeR p h ih => exact ih

/-- Witness for C8 at the freshly allocated pipe. -/
theorem pipe_capacity_invariant_witness :
    ((Pipe.mk 0 0 true true).nread ≤ (Pipe.mk 0 0 true true).nwrite ∧
      (Pipe.mk 0 0 true true).nwrite - (Pipe.mk 0 0 true true).nread ≤ PIPESIZE) ∧
    writeDelta (Pipe.mk 0 0 true true) 5 ≤
      PIPESIZE - ((Pipe.mk 0 0 true true).nwrite - (Pipe.mk 0 0 true true).nread) ∧
    readDelta (Pipe.mk 0 0 true true) 5 ≤
      (Pipe.mk 0 0 true true).nwrite - (Pipe.mk 0 0 true true).nread :=
  ⟨(pipe_capacity_invariant _ PipeReach.init).1,
   (pipe_capacity_invariant _ PipeReach.init).2.1 5,
   (pipe_capacity_invariant _ PipeReach.init).2.2 5⟩

/-- The observable outcome of one `piperead` call: either the call reaches
`sleep(&pi->nread, ...)` (so it blocks at least once), or it returns a
byte count together with the final pipe state. -/
inductive ReadOutcome where
  | sleeps : ReadOutcome
  | returns (i : Nat) (p : Pipe) : ReadOutcome
deriving DecidableEq, Repr

/-- The copy loop of `piperead` (pipe_new.c lines 151-170).  `fuel` bounds
the number of iterations; `piperead` passes `fuel = n`, which suffices
because every iteration that recurses advances `i` by at least one byte
while `i < n`. -/
def pipereadLoop (fuel : Nat) (p : Pipe) (n i : Nat) : Nat × Pipe :=
  match fuel with
  | 0 => (i, p)
  | fuel + 1 =>
    if i < n then
      if p.nread = p.nwrite then (i, p)
      else
        let d := readDelta p (n - i)
        pipereadLoop fuel { p with nread := p.nread + d } n (i + d)
    else (i, p)

/-- `piperead` (pipe_new.c lines 135-175).  The entry loop
`while(nread == nwrite && writeopen)` sleeps; it is entered exactly when
the buffer is empty and the writer is still open, which the model reports
as `ReadOutcome.sleeps`.  Otherwise the call runs the copy loop and
returns the byte count. -/
def piperead (p : Pipe) (n : Nat) : ReadOutcome :=
  if p.nread = p.nwrite ∧ p.writeopen = true then ReadOutcome.sleeps
  else
    let r := pipereadLoop n p n 0
    ReadOutcome.returns r.1 r.2

/-- C9: for every pipe whose writer endpoint has closed and whose buffer
is empty, every subsequent `piperead` call returns 0 (EOF) without
sleeping, leaving the pipe unchanged. -/
theorem piperead_eof (p : Pipe) (n : Nat)
    (hclosed : p.writeopen = false) (hempty : p.nread = p.nwrite) :
    piperead p n = ReadOutcome.returns 0 p := by
  have hcond : ¬(p.nread = p.nwrite ∧ p.writeopen = true) := by
    simp [hclosed]
  unfold piperead
  rw [if_neg hcond]
  cases n with
  | zero => simp [pipereadLoop]
  | succ k => simp [pipereadLoop, hempty]

/-- Witness for C9: a pipe with closed writer and empty buffer returns EOF. -/
theorem piperead_eof_witness :
    piperead ⟨5, 5, true, false⟩ 3 = ReadOutcome.returns 0 ⟨5, 5, true, false⟩ :=
  piperead_eof ⟨5, 5, true, false⟩ 3 rfl rfl

end PipeNew

namespace LogModel

/-- The in-memory log header as mutated by `log_write`: the entry count
`n` and the block-number array (`struct logheader`, pipe_new.c lines
246-250; `seq_nbr` and the on-disk image are modelled separately below).
`block` is total over `Nat` because C array cells beyond index `n` hold
unspecified values. -/
@[ext]
structure LogHeaderW where
  n : Nat
  block : Nat → Int

/-- The absorption scan of `log_write` (pipe_new.c lines 587-590): the
first index `i < n` with `block[i] == b->blockno`, or `n` when there is
none (the C loop falls through with `i == n`). -/
def scanIdx (h : LogHeaderW) (bno : Int) : Nat :=
  ((List.range h.n).find? (fun i => h.block i == bno)).getD h.n

/-- The header mutation of `log_write` (pipe_new.c lines 591-595):
`block[i] = b->blockno`, and `n` increments exactly when the scan found
no existing entry (`i == n`).  This models the non-panicking path; claim
C4 shows the panic guard is unreachable for admitted transactions. -/
def log_write (h : LogHeaderW) (bno : Int) : LogHeaderW :=
  let i := scanIdx h bno
  { n := if i = h.n then h.n + 1 else h.n
    block := fun j => if j = i then bno else h.block j }

/-- The block numbers recorded in the header: `block[0..n)`. -/
def entries (h : LogHeaderW) : List Int := (List.range h.n).map h.block

/-- The number of header entries holding a given block number. -/
def entryCount (h : LogHeaderW) (bno : Int) : Nat :=
  ((List.range h.n).filter (fun i => h.block i == bno)).length

theorem scanIdx_of_not_mem (h : LogHeaderW) (bno : Int) (hm : bno ∉ entries h) :
    scanIdx h bno = h.n := by
  have hnone : (List.range h.n).find? (fun i => h.block i == bno) = none := by
    rw [List.find?_eq_none]
    intro i hi
    simp only [beq_iff_eq]
    intro hEq
    exact hm (List.mem_map.mpr ⟨i, hi, hEq⟩)
  unfold scanIdx
  rw [hnone]
  rfl

theorem scanIdx_of_mem (h : LogHeaderW) (bno : Int) (hm : bno ∈ entries h) :
    scanIdx h bno < h.n ∧ h.block (scanIdx h bno) = bno := by
  obtain ⟨x, hx, hEq⟩ := List.mem_map.mp hm
  have hsome : ((List.range h.n).find? (fun i => h.block i == bno)).isSome := by
    rw [List.find?_isSome]
    exact ⟨x, hx, by simp [hEq]⟩
  obtain ⟨j, hj⟩ := Option.isSome_iff_exists.mp hsome
  have hpj := List.find?_some hj
  have hjm := List.mem_of_find?_eq_some hj
  unfold scanIdx
  rw [hj]
  simp only [Option.getD_some]
  exact ⟨List.mem_range.mp hjm, by simpa using hpj⟩

theorem log_write_absorb (h : LogHeaderW) (bno : Int) (hm : bno ∈ entries h) :
    log_write h bno = h := by
  obtain ⟨hlt, hblk⟩ := scanIdx_of_mem h bno hm
  have hne : scanIdx h bno ≠ h.n := Nat.ne_of_lt hlt
  ext j
  · simp [log_write, hne]
  · simp only [log_write]
    by_cases hj : j = scanIdx h bno
    · subst hj
      simp [hblk]
    · simp [hj]

theorem log_write_fresh (h : LogHeaderW) (bno : Int) (hm : bno ∉ entries h) :
    (log_write h bno).n = h.n + 1 ∧ bno ∈ entries (log_write h bno) ∧
      entryCount (log_write h bno) bno = 1 := by
  have hs := scanIdx_of_not_mem h bno hm
  have hn1 : (log_write h bno).n = h.n + 1 := by simp [log_write, hs]
  have hblk : ∀ j, (log_write h bno).block j = if j = h.n then bno else h.block j := by
    intro j
    simp [log_write, hs]
  refine ⟨hn1, ?_, ?_⟩
  · unfold entries
    rw [hn1]
    refine List.mem_map.mpr ⟨h.n, List.mem_range.mpr (Nat.lt_succ_self _), ?_⟩
    rw [hblk]
    simp
  · unfold entryCount
    rw [hn1, List.range_succ, List.filter_append]
    have hfirst : (List.range h.n).filter
        (fun i => (log_write h bno).block i == bno) = [] := by
      rw [List.filter_eq_nil_iff]
      intro i hi
      have hilt := List.mem_range.mp hi
      rw [hblk i]
      rw [if_neg (Nat.ne_of_lt hilt)]
      simp only [beq_iff_eq]
      intro hEq
      exact hm (List.mem_map.mpr ⟨i, hi, hEq⟩)
    have hlast : [h.n].filter (fun i => (log_write h bno).block i == bno) = [h.n] := by
      simp [hblk]
    rw [hfirst, hlast]
    rfl

theorem mem_entries_log_write (h : LogHeaderW) (bno : Int) :
    bno ∈ entries (log_write h bno) := by
  by_cases hm : bno ∈ entries h
  · rw [log_write_absorb h bno hm]
    exact hm
  · exact (log_write_fresh h bno hm).2.1

theorem log_write_iterate_absorb (h : LogHeaderW) (bno : Int) (m : Nat) :
    (fun x => log_write x bno)^[m] (log_write h bno) = log_write h bno := by
  induction m with
  | zero => rfl
  | succ k ih =>
    rw [Function.iterate_succ_apply]
    show (fun x => log_write x bno)^[k] (log_write (log_write h bno) bno) = _
    rw [log_write_absorb _ _ (mem_entries_log_write h bno)]
    exact ih

/-- C5: within one transaction, calling `log_write` `k ≥ 1` times with the
same block number produces exactly one header entry holding that number
and increments `header.n` exactly once; every call after the first leaves
the header unchanged (absorption), so `k` calls equal one call. -/
theorem log_write_absorption (h : LogHeaderW) (bno : Int) (k : Nat)
    (hk : 1 ≤ k) (hm : bno ∉ entries h) :
    (fun x => log_write x bno)^[k] h = log_write h bno ∧
    (log_write h bno).n = h.n + 1 ∧
    entryCount (log_write h bno) bno = 1 := by
  obtain ⟨m, rfl⟩ : ∃ m, k = m + 1 := ⟨k - 1, by omega⟩
  refine ⟨?_, (log_write_fresh h bno hm).1, (log_write_fresh h bno hm).2.2⟩
  rw [Function.iterate_succ_apply]
  exact log_write_iterate_absorb h bno m

/-- A concrete one-entry header used by witnesses. -/
def headerW0 : LogHeaderW := ⟨1, fun _ => 7⟩

/-- Witness for C5: three identical `log_write` calls on a fresh block
number act as one. -/
theorem log_write_absorption_witness :
    (fun x => log_write x 9)^[3] headerW0 = log_write headerW0 9 ∧
    (log_write headerW0 9).n = headerW0.n + 1 ∧
    entryCount (log_write headerW0 9) 9 = 1 :=
  log_write_absorption headerW0 9 3 (by decide) (by decide)

end LogModel

namespace TxModel

/-- One slot's admission-relevant state: the header entry count `n` and
the in-flight operations of the slot, each recorded by how many distinct
blocks it has logged so far.  `outstanding` is the length of `ops`. -/
structure SlotTx where
  n : Nat
  ops : List Nat
deriving DecidableEq, Repr

/-- The panic guard of `log_write` (pipe_new.c line 582):
`lh.n >= LOGSIZE || lh.n >= log->size - 1`. -/
def log_writePanic (LOGSIZE size n : Nat) : Prop :=
  LOGSIZE ≤ n ∨ size - 1 ≤ n

instance (LOGSIZE size n : Nat) : Decidable (log_writePanic LOGSIZE size n) := by
  unfold log_writePanic
  infer_instance

/-- Slot states reachable through the transaction API.  `admit` is the
`begin_op` admission with its guard from pipe_new.c line 468 (negated:
`lh.n + (outstanding+1)*MAXOPBLOCKS ≤ LOGSIZE`); `writeNew` is a
`log_write` of a fresh block by an operation that has logged fewer than
`MAXOPBLOCKS` distinct blocks (the bound claim C4 presumes of every
transaction); an absorbed `log_write` changes nothing and needs no
constructor; `endOp` removes its operation and, when it was the last one,
seals the slot, whose commit resets `n` to 0 before the slot accepts new
operations again. -/
inductive TxReach (MAXOPBLOCKS LOGSIZE : Nat) : SlotTx → Prop where
  | init : TxReach MAXOPBLOCKS LOGSIZE ⟨0, []⟩
  | admitOp (s : SlotTx) (h : TxReach MAXOPBLOCKS LOGSIZE s)
      (hadm : s.n + (s.ops.length + 1) * MAXOPBLOCKS ≤ LOGSIZE) :
      TxReach MAXOPBLOCKS LOGSIZE ⟨s.n, 0 :: s.ops⟩
  | writeNew (n u : Nat) (l r : List Nat)
      (h : TxReach MAXOPBLOCKS LOGSIZE ⟨n, l ++ u :: r⟩)
      (hu : u < MAXOPBLOCKS) :
      TxReach MAXOPBLOCKS LOGSIZE ⟨n + 1, l ++ (u + 1) :: r⟩
  | endOp (n u : Nat) (l r : List Nat)
      (h : TxReach MAXOPBLOCKS LOGSIZE ⟨n, l ++ u :: r⟩) :
      TxReach MAXOPBLOCKS LOGSIZE ⟨if l ++ r = [] then 0 else n, l ++ r⟩

theorem sum_budget_le (MB : Nat) (ops : List Nat) :
    (ops.map (fun u => MB - u)).sum ≤ ops.length * MB := by
  induction ops with
  | nil => simp
  | cons a t ih =>
    simp only [List.map_cons, List.sum_cons, List.length_cons]
    rw [Nat.succ_mul]
    have ha : MB - a ≤ MB := Nat.sub_le _ _
    omega

/-- The inductive budget invariant: the entry count plus the remaining
write budgets of all in-flight operations never exceeds `LOGSIZE`. -/
theorem txInv (MB LS : Nat) (s : SlotTx) (h : TxReach MB LS s) :
    s.n + (s.ops.map (fun u => MB - u)).sum ≤ LS := by
  induction h with
  | init => simp
  | admitOp s h hadm ih =>
    dsimp only
    simp only [List.map_cons, List.sum_cons]
    rw [Nat.succ_mul] at hadm
    have hb := sum_budget_le MB s.ops
    omega
  | writeNew n u l r h hu ih =>
    dsimp only at ih ⊢
    simp only [List.map_append, List.map_cons, List.sum_append, List.sum_cons] at ih ⊢
    omega
  | endOp n u l r h ih =>
    dsimp only at ih ⊢
    simp only [List.map_append, List.map_cons, List.sum_append, List.sum_cons] at ih ⊢
    split <;> omega

/-- C4 (amended): for every transaction admitted by `begin_op` that
issues at most `MAXOPBLOCKS` distinct `log_write` calls, immediately
after admission `header.n + outstanding * MAXOPBLOCKS ≤ LOGSIZE` holds;
and the `too big a transaction` panic guard of `log_write` is false at
every call whose operation has so far logged fewer than `MAXOPBLOCKS`
distinct blocks — in particular at every call that records a new block.
The original claim's stronger clause, that the panic branch is
unreachable outright, fails: the guard at line 582 runs before the
absorption scan, so an absorbed re-write by an operation whose
distinct-block budget is exhausted can reach it once `header.n` equals
`LOGSIZE` (see the counterexample below).  The slot size (superblock
geometry, set outside src/) is assumed ≥ LOGSIZE + 1 blocks per the
spec's on-disk slot layout of one header block plus up to LOGSIZE
payload blocks. -/
theorem admitted_transactions_never_overflow (MB LS size : Nat)
    (hsize : LS + 1 ≤ size) (s : SlotTx)
    (h : TxReach MB LS s) :
    (s.n + (s.ops.length + 1) * MB ≤ LS →
      (SlotTx.mk s.n (0 :: s.ops)).n + (SlotTx.mk s.n (0 :: s.ops)).ops.length * MB ≤ LS) ∧
    (∀ l u r, s.ops = l ++ u :: r → u < MB →
      ¬ log_writePanic LS size s.n) := by
  have hInv := txInv MB LS s h
  constructor
  · intro hadm
    simpa using hadm
  · intro l u r hops hu
    rw [hops] at hInv
    simp only [List.map_append, List.map_cons, List.sum_append, List.sum_cons] at hInv
    unfold log_writePanic
    omega

/-- Witness for C4: with MAXOPBLOCKS = 2 and LOGSIZE = 6, a slot holding
one freshly admitted operation cannot trip the log_write panic guard. -/
theorem admitted_transactions_never_overflow_witness :
    ¬ log_writePanic 6 7 (SlotTx.mk 0 [0]).n :=
  (admitted_transactions_never_overflow 2 6 7 (by decide)
      ⟨0, [0]⟩ (TxReach.admitOp ⟨0, []⟩ TxReach.init (by decide))).2
    [] 0 [] rfl (by decide)

/-- C4 counterexample: with MAXOPBLOCKS = 2, LOGSIZE = 6 and slot size 7,
three concurrently admitted operations that each log exactly 2 distinct
blocks drive the slot to the reachable state `n = 6 = LOGSIZE` with all
three operations still in flight.  The very next `log_write` call — an
absorbed re-write of a block its caller already logged, so every
transaction still issues at most MAXOPBLOCKS distinct calls — evaluates
the entry guard `lh.n >= LOGSIZE || lh.n >= log->size - 1` (pipe_new.c
line 582) before the absorption scan, and panics: the panic branch is
reachable under the claim's precondition. -/
theorem absorbed_write_panics_at_full_log :
    TxReach 2 6 ⟨6, [2, 2, 2]⟩ ∧
    (SlotTx.mk 6 [2, 2, 2]).ops ≠ [] ∧
    log_writePanic 6 7 (SlotTx.mk 6 [2, 2, 2]).n := by
  refine ⟨?_, by decide, by decide⟩
  have a1 : TxReach 2 6 ⟨0, [0]⟩ :=
    TxReach.admitOp ⟨0, []⟩ TxReach.init (by decide)
  have a2 : TxReach 2 6 ⟨0, [0, 0]⟩ :=
    TxReach.admitOp ⟨0, [0]⟩ a1 (by decide)
  have a3 : TxReach 2 6 ⟨0, [0, 0, 0]⟩ :=
    TxReach.admitOp ⟨0, [0, 0]⟩ a2 (by decide)
  have w1 : TxReach 2 6 ⟨1, [1, 0, 0]⟩ :=
    TxReach.writeNew 0 0 [] [0, 0] a3 (by decide)
  have w2 : TxReach 2 6 ⟨2, [2, 0, 0]⟩ :=
    TxReach.writeNew 1 1 [] [0, 0] w1 (by decide)
  have w3 : TxReach 2 6 ⟨3, [2, 1, 0]⟩ :=
    TxReach.writeNew 2 0 [2] [0] w2 (by decide)
  have w4 : TxReach 2 6 ⟨4, [2, 2, 0]⟩ :=
    TxReach.writeNew 3 1 [2] [0] w3 (by decide)
  have w5 : TxReach 2 6 ⟨5, [2, 2, 1]⟩ :=
    TxReach.writeNew 4 0 [2, 2] [] w4 (by decide)
  exact TxReach.writeNew 5 1 [2, 2] [] w5 (by decide)

end TxModel

namespace SeqModel

/-- Events of the commit/install protocol of `end_op` (pipe_new.c lines
483-525): a slot seals (its last outstanding operation ends), a committer
passes the sequence-ordering gate and begins `commit()`, or a `commit()`
returns and the slot is released. -/
inductive LEvent where
  | sealTx : LEvent
  | beginInstall (s : Nat) : LEvent
  | endInstall : LEvent
deriving DecidableEq, Repr

/-- The pool state `end_op` manipulates: `sealed` is `logs.seq_nbr`, the
number of seals so far (each seal stamps the current value into the slot
header and post-increments, line 498); `installed` is the number of
completed installs, so `copies_committed = sealed - installed` (it is
incremented at line 499 and decremented at line 519, after `commit()`
returns); `active` is the sequence number of the transaction currently
inside `commit()`, if any. -/
structure LState where
  sealed : Nat
  installed : Nat
  active : Option Nat
deriving DecidableEq, Repr

/-- One protocol step.  `seal`: an `end_op` sees `outstanding` reach zero,
stamps `lh.seq_nbr = logs.seq_nbr++` and increments `copies_committed`.
`beginInstall s`: the committer of the transaction stamped `s` passes the
gate `lh.seq_nbr + logs.copies_committed == logs.seq_nbr` of line 507 and
calls `commit()`; `active = none` reflects that each sealed transaction
has exactly one committer, executing the gate once, and
`installed < sealed` that `s` belongs to a sealed, not yet installed
transaction.  `endInstall`: `commit()` returns; `committing` is cleared
and `copies_committed` decremented. -/
def lstep (st : LState) (e : LEvent) : Option LState :=
  match e with
  | .sealTx => some { st with sealed := st.sealed + 1 }
  | .beginInstall s =>
    if st.active = none ∧ s + (st.sealed - st.installed) = st.sealed ∧
        st.installed < st.sealed then
      some { st with active := some s }
    else none
  | .endInstall =>
    match st.active with
    | some _ => some { st with installed := st.installed + 1, active := none }
    | none => none

/-- Run a list of events from a state; `none` when some step is not
enabled. -/
def lrun (st : LState) : List LEvent → Option LState
  | [] => some st
  | e :: tr =>
    match lstep st e with
    | some st1 => lrun st1 tr
    | none => none

/-- The pool state at boot: no seals, no installs, nothing committing. -/
def linit : LState := ⟨0, 0, none⟩

/-- The sequence numbers whose installs begin, in trace order. -/
def installsOf (tr : List LEvent) : List Nat :=
  tr.filterMap (fun e =>
    match e with
    | .beginInstall s => some s
    | _ => none)

/-- The `seq_nbr` values stamped into slot headers by successive seals,
starting from counter value `c` (line 498). -/
def stampsFrom (c : Nat) : List LEvent → List Nat
  | [] => []
  | .sealTx :: tr => c :: stampsFrom (c + 1) tr
  | .beginInstall _ :: tr => stampsFrom c tr
  | .endInstall :: tr => stampsFrom c tr

/-- State invariant: installs never outrun seals, and the transaction
inside `commit()` is always the frontier one. -/
def LInv (st : LState) : Prop :=
  st.installed ≤ st.sealed ∧
  ∀ a, st.active = some a → a = st.installed ∧ st.installed < st.sealed

/-- Lower bound on every sequence number that can begin installing from
this state onward. -/
def lbound (st : LState) : Nat :=
  match st.active with
  | none => st.installed
  | some a => a + 1

theorem linit_inv : LInv linit := by
  constructor
  · exact Nat.le_refl 0
  · intro a ha
    simp [linit] at ha

theorem lstep_inv (st st' : LState) (e : LEvent)
    (h : lstep st e = some st') (hi : LInv st) : LInv st' := by
  obtain ⟨h1, h2⟩ := hi
  cases e with
  | sealTx =>
    simp only [lstep, Option.some.injEq] at h
    subst h
    refine ⟨Nat.le_succ_of_le h1, ?_⟩
    intro a ha
    obtain ⟨ha1, ha2⟩ := h2 a ha
    exact ⟨ha1, Nat.lt_succ_of_lt ha2⟩
  | beginInstall s =>
    simp only [lstep] at h
    split at h
    · rename_i hg
      obtain ⟨hg1, hg2, hg3⟩ := hg
      simp only [Option.some.injEq] at h
      subst h
      refine ⟨h1, ?_⟩
      intro a ha
      simp only [Option.some.injEq] at ha
      subst ha
      constructor
      · show s = st.installed
        omega
      · exact hg3
    · exact absurd h (by simp)
  | endInstall =>
    simp only [lstep] at h
    cases hact : st.active with
    | none =>
      rw [hact] at h
      simp at h
    | some a =>
      rw [hact] at h
      simp only [Option.some.injEq] at h
      subst h
      obtain ⟨ha1, ha2⟩ := h2 a hact
      constructor
      · show st.installed + 1 ≤ st.sealed
        omega
      · intro b hb
        simp at hb

theorem lrun_inv (tr : List LEvent) (st st' : LState)
    (h : lrun st tr = some st') (hi : LInv st) : LInv st' := by
  induction tr generalizing st with
  | nil =>
    simp only [lrun, Option.some.injEq] at h
    subst h
    exact hi
  | cons e tr ih =>
    simp only [lrun] at h
    cases hs : lstep st e with
    | none => rw [hs] at h; exact absurd h (by simp)
    | some st1 =>
      rw [hs] at h
      exact ih st1 h (lstep_inv st st1 e hs hi)

theorem lrun_append (st : LState) (t1 t2 : List LEvent) :
    lrun st (t1 ++ t2) = (lrun st t1).bind (fun m => lrun m t2) := by
  induction t1 generalizing st with
  | nil => simp [lrun]
  | cons e tr ih =>
    simp only [List.cons_append, lrun]
    cases hs : lstep st e with
    | none => simp
    | some st1 => simpa using ih st1

/-- Along any valid run from an invariant state, the sequence numbers that
begin installing are strictly increasing and all of them are at least the
state's lower bound. -/
theorem installs_mono (tr : List LEvent) (st st' : LState)
    (h : lrun st tr = some st') (hi : LInv st) :
    List.Chain' (· < ·) (installsOf tr) ∧ ∀ x ∈ installsOf tr, lbound st ≤ x := by
  induction tr generalizing st with
  | nil =>
    constructor
    · exact List.chain'_nil
    · intro x hx
      simp [installsOf] at hx
  | cons e tr ih =>
    simp only [lrun] at h
    cases hs : lstep st e with
    | none => rw [hs] at h; exact absurd h (by simp)
    | some st1 =>
      rw [hs] at h
      have hi1 := lstep_inv st st1 e hs hi
      obtain ⟨ihc, ihb⟩ := ih st1 h hi1
      cases e with
      | sealTx =>
        have hinst : installsOf (LEvent.sealTx :: tr) = installsOf tr := by
          simp [installsOf]
        have hb1 : lbound st1 = lbound st := by
          simp only [lstep, Option.some.injEq] at hs
          subst hs
          rfl
        rw [hinst]
        exact ⟨ihc, fun x hx => by rw [← hb1]; exact ihb x hx⟩
      | beginInstall s =>
        simp only [lstep] at hs
        split at hs
        · rename_i hg
          obtain ⟨hg1, hg2, hg3⟩ := hg
          obtain ⟨hle, _⟩ := hi
          have hseq : s = st.installed := by omega
          simp only [Option.some.injEq] at hs
          have hb1 : lbound st1 = s + 1 := by
            subst hs
            rfl
          have hbst : lbound st = st.installed := by
            unfold lbound
            rw [hg1]
          have hinst : installsOf (LEvent.beginInstall s :: tr) = s :: installsOf tr := by
            simp [installsOf]
          rw [hinst]
          constructor
          · rw [List.chain'_cons']
            refine ⟨?_, ihc⟩
            intro y hy
            have hym := List.mem_of_mem_head? hy
            have := ihb y hym
            omega
          · intro x hx
            rcases List.mem_cons.mp hx with h1 | h1
            · omega
            · have := ihb x h1
              omega
        · exact absurd hs (by simp)
      | endInstall =>
        simp only [lstep] at hs
        cases hact : st.active with
        | none => rw [hact] at hs; simp at hs
        | some a =>
          rw [hact] at hs
          simp only [Option.some.injEq] at hs
          obtain ⟨_, h2⟩ := hi
          obtain ⟨ha1, ha2⟩ := h2 a hact
          have hb1 : lbound st1 = a + 1 := by
            subst hs
            simp [lbound]
            omega
          have hbst : lbound st = a + 1 := by
            unfold lbound
            rw [hact]
          have hinst : installsOf (LEvent.endInstall :: tr) = installsOf tr := by
            simp [installsOf]
          rw [hinst]
          refine ⟨ihc, fun x hx => ?_⟩
          have := ihb x hx
          omega

/-- While the committer of `a` is inside `commit()`, no other install can
begin and no install can end out from under it: a run containing no
`endInstall` keeps `active = some a` and contains no `beginInstall`. -/
theorem active_persists (tr : List LEvent) (st st' : LState) (a : Nat)
    (h : lrun st tr = some st') (ha : st.active = some a)
    (hne : LEvent.endInstall ∉ tr) :
    st'.active = some a ∧ ∀ x, LEvent.beginInstall x ∉ tr := by
  induction tr generalizing st with
  | nil =>
    simp only [lrun, Option.some.injEq] at h
    subst h
    exact ⟨ha, by intro x; simp⟩
  | cons e tr ih =>
    simp only [lrun] at h
    cases hs : lstep st e with
    | none => rw [hs] at h; exact absurd h (by simp)
    | some st1 =>
      rw [hs] at h
      cases e with
      | sealTx =>
        simp only [lstep, Option.some.injEq] at hs
        have ha1 : st1.active = some a := by
          rw [← hs]
          exact ha
        have hne1 : LEvent.endInstall ∉ tr := fun hc => hne (List.mem_cons_of_mem _ hc)
        obtain ⟨hact, hnob⟩ := ih st1 h ha1 hne1
        refine ⟨hact, ?_⟩
        intro x hx
        rcases List.mem_cons.mp hx with h1 | h1
        · exact absurd h1 (by simp)
        · exact hnob x h1
      | beginInstall s =>
        simp only [lstep] at hs
        split at hs
        · rename_i hg
          rw [ha] at hg
          exact absurd hg.1 (by simp)
        · exact absurd hs (by simp)
      | endInstall =>
        exact absurd (List.mem_cons_self _ _) hne

/-- First-occurrence decomposition of a list around a member. -/
theorem first_occurrence {α : Type} (a : α) (l : List α) (h : a ∈ l) :
    ∃ u v, l = u ++ a :: v ∧ a ∉ u := by
  induction l with
  | nil => cases h
  | cons b t ih =>
    by_cases hb : a = b
    · subst hb
      exact ⟨[], t, rfl, by simp⟩
    · have ht : a ∈ t := by
        rcases List.mem_cons.mp h with h1 | h1
        · exact absurd h1 hb
        · exact h1
      obtain ⟨u, v, huv, hnu⟩ := ih ht
      refine ⟨b :: u, v, by rw [huv, List.cons_append], ?_⟩
      intro hc
      rcases List.mem_cons.mp hc with h1 | h1
      · exact hb h1
      · exact hnu h1

/-- C6: installation order equals commit order.  In every valid run of the
end_op protocol from boot, if the install of the transaction stamped `s1`
begins before the install of the transaction stamped `s2`, then
`s1 < s2`, and an `endInstall` closes `s1`'s `commit()` strictly between
the two, before any other install begins — so for `seq(T1) < seq(T2)` the
install of T1 completes before the install of T2 begins, enforced by the
gate `lh.seq_nbr + logs.copies_committed == logs.seq_nbr`. -/
theorem install_order_follows_commit_order
    (t1 t2 t3 : List LEvent) (s1 s2 : Nat) (stF : LState)
    (h : lrun linit
      (t1 ++ LEvent.beginInstall s1 :: (t2 ++ LEvent.beginInstall s2 :: t3)) =
      some stF) :
    s1 < s2 ∧ ∃ u v, t2 = u ++ LEvent.endInstall :: v ∧
      ∀ x, LEvent.beginInstall x ∉ u := by
  rw [lrun_append] at h
  cases hA : lrun linit t1 with
  | none => rw [hA] at h; exact absurd h (by simp)
  | some stA =>
    rw [hA, Option.some_bind] at h
    have hIA : LInv stA := lrun_inv t1 linit stA hA linit_inv
    simp only [lrun] at h
    cases hB : lstep stA (LEvent.beginInstall s1) with
    | none => rw [hB] at h; exact absurd h (by simp)
    | some stB =>
      rw [hB] at h
      have hrest : lrun stB (t2 ++ LEvent.beginInstall s2 :: t3) = some stF := h
      have hIB : LInv stB := lstep_inv stA stB _ hB hIA
      have hBact : stB.active = some s1 := by
        simp only [lstep] at hB
        split at hB
        · simp only [Option.some.injEq] at hB
          subst hB
          rfl
        · exact absurd hB (by simp)
      have hbB : lbound stB = s1 + 1 := by
        unfold lbound
        rw [hBact]
      have hlt : s1 < s2 := by
        obtain ⟨_, hball⟩ := installs_mono _ stB stF hrest hIB
        have hs2mem : s2 ∈ installsOf (t2 ++ LEvent.beginInstall s2 :: t3) := by
          unfold installsOf
          rw [List.filterMap_append]
          refine List.mem_append.mpr (Or.inr ?_)
          simp
        have := hball s2 hs2mem
        omega
      have hmem : LEvent.endInstall ∈ t2 := by
        by_contra hno
        rw [lrun_append] at hrest
        cases hC : lrun stB t2 with
        | none => rw [hC] at hrest; exact absurd hrest (by simp)
        | some stC =>
          rw [hC, Option.some_bind] at hrest
          obtain ⟨hCact, _⟩ := active_persists t2 stB stC s1 hC hBact hno
          simp only [lrun] at hrest
          have hD : lstep stC (LEvent.beginInstall s2) = none := by
            simp only [lstep]
            rw [if_neg]
            intro hg
            rw [hCact] at hg
            exact absurd hg.1 (by simp)
          rw [hD] at hrest
          exact absurd hrest (by simp)
      obtain ⟨u, v, ht2, hnu⟩ := first_occurrence LEvent.endInstall t2 hmem
      refine ⟨hlt, u, v, ht2, ?_⟩
      rw [ht2, List.append_assoc, lrun_append] at hrest
      cases hU : lrun stB u with
      | none => rw [hU] at hrest; exact absurd hrest (by simp)
      | some stU =>
        exact (active_persists u stB stU s1 hU hBact hnu).2

/-- Witness for C6: in the run seal, seal, install 0, install 1 the two
installs are ordered and separated by the completion of the first. -/
theorem install_order_follows_commit_order_witness :
    0 < 1 ∧ ∃ u v, ([LEvent.endInstall] : List LEvent) = u ++ LEvent.endInstall :: v ∧
      ∀ x, LEvent.beginInstall x ∉ u :=
  install_order_follows_commit_order [LEvent.sealTx, LEvent.sealTx] [LEvent.endInstall]
    [LEvent.endInstall] 0 1 ⟨2, 2, none⟩ (by decide)

/-- A valid run in which six transactions seal: the sixth is stamped
`seq_nbr = 5`. -/
def sixSeals : List LEvent :=
  [LEvent.sealTx, LEvent.beginInstall 0, LEvent.endInstall,
   LEvent.sealTx, LEvent.beginInstall 1, LEvent.endInstall,
   LEvent.sealTx, LEvent.beginInstall 2, LEvent.endInstall,
   LEvent.sealTx, LEvent.beginInstall 3, LEvent.endInstall,
   LEvent.sealTx, LEvent.beginInstall 4, LEvent.endInstall,
   LEvent.sealTx, LEvent.beginInstall 5, LEvent.endInstall]

/-- C7 (refuting evidence): `end_op` stamps `lh.seq_nbr = logs.seq_nbr++`
with no reduction modulo `MAX_SEQ_NBR`, so stamped sequence numbers grow
without bound.  In the valid run `sixSeals` the sixth transaction is
stamped 5, which for the configured `LOGCOPIES = 4` lies outside
`[0, LOGCOPIES]` and is not the -1 sentinel — contradicting the claim and
the source's own comment that `seq_nbr` is between 0 and LOGCOPIES
inclusive. -/
theorem seal_stamp_exceeds_logcopies :
    lrun linit sixSeals = some ⟨6, 6, none⟩ ∧
    stampsFrom 0 sixSeals = [0, 1, 2, 3, 4, 5] ∧
    5 ∈ stampsFrom 0 sixSeals ∧ ¬(5 ≤ 4) := by decide

end SeqModel

namespace Recovery

/-- One slot's header as `read_head` leaves it in memory: the entry count
`n` and the sequence number, both C `int`s. -/
structure HeaderR where
  n : Int
  seq_nbr : Int
deriving DecidableEq, Repr

/-- `find_first_commit` (pipe_new.c lines 375-419), branch by branch, for
`L = LOGCOPIES` slot headers; `MAX_SEQ_NBR = LOGCOPIES + 1` (line 244).
If slot 0 is empty, take the smallest index with `n > 0`, or start fresh
at 0.  Otherwise scan backward from `LOGCOPIES-1` to 1 for an empty slot
`i` and answer `(i+1) % MAX_SEQ_NBR`.  Otherwise all slots are committed:
scan the sequence numbers for the wrap pair.  `none` is the
`panic("find first commit")`. -/
def find_first_commit (L : Nat) (hs : List HeaderR) : Option Nat :=
  if (hs.getD 0 ⟨0, 0⟩).n = 0 then
    some (((List.range L).find? (fun i => decide (0 < (hs.getD i ⟨0, 0⟩).n))).getD 0)
  else
    match ((List.range (L - 1)).reverse.map (fun i => i + 1)).find?
        (fun i => decide ((hs.getD i ⟨0, 0⟩).n = 0)) with
    | some i => some ((i + 1) % (L + 1))
    | none =>
      match (List.range L).find? (fun i =>
          decide ((hs.getD i ⟨0, 0⟩).seq_nbr + 1 ≠
            (hs.getD ((i + 1) % L) ⟨0, 0⟩).seq_nbr)) with
      | some i => some ((i + 1) % L)
      | none => none

/-- The slot visit order of the install loop of `recover_from_log`
(lines 444-449): `for(i = find_first_commit(); i < LOGCOPIES; i++)` with
`lognum = i % LOGCOPIES`. -/
def recoverVisitOrder (L first : Nat) : List Nat :=
  (List.range' first (L - first)).map (fun i => i % L)

/-- `recover_from_log` (lines 421-450): visit the slots in the loop's
order, installing each one (`install_trans`) and clearing its header
(`lh.n = 0` followed by `write_head`).  Returns the visit order and the
final headers; `none` is the panic inside `find_first_commit`. -/
def recover_from_log (L : Nat) (hs : List HeaderR) :
    Option (List Nat × List HeaderR) :=
  (find_first_commit L hs).map (fun first =>
    let visits := recoverVisitOrder L first
    (visits, visits.foldl (fun acc j => acc.set j { acc.getD j ⟨0, 0⟩ with n := 0 }) hs))

/-- A reachable boot state for `LOGCOPIES = 4`: the very first transaction
ever committed into slot 0 (its header is durable with `n = 2`) and the
machine crashed after the commit point, before the clearing `write_head`;
slots 1-3 were never used. -/
def bootHeaders : List HeaderR := [⟨2, 0⟩, ⟨0, -1⟩, ⟨0, -1⟩, ⟨0, -1⟩]

/-- C1 (refuting evidence): on `bootHeaders`, the backward scan of
`find_first_commit` finds empty slot 3 and answers
`(3+1) % MAX_SEQ_NBR = 4` (line 395 reduces modulo `LOGCOPIES + 1`, not
`LOGCOPIES`), so the install loop `for(i = 4; i < 4; i++)` runs zero
iterations: slot 0 is never installed and never cleared although its
header has `n > 0`, where the claim requires it installed exactly once
and cleared. -/
theorem recovery_misses_committed_slot :
    find_first_commit 4 bootHeaders = some 4 ∧
    recover_from_log 4 bootHeaders = some ([], bootHeaders) ∧
    0 < (bootHeaders.getD 0 ⟨0, 0⟩).n ∧
    0 ∉ recoverVisitOrder 4 4 := by decide

end Recovery

namespace DiskLayout

/-- `initlog` (pipe_new.c line 290): slot `i`'s log region starts at disk
block `sb->logstart + i * (sb->nlog / LOGCOPIES)`. -/
def slotStart (logstart size i : Nat) : Nat := logstart + i * size

/-- The disk block `write_head` addresses (line 358):
`bread(log->dev, log->start + (lognum * log->size))`. -/
def writeHeadBlock (logstart size lognum : Nat) : Nat :=
  slotStart logstart size lognum + lognum * size

/-- The disk block `read_head` addresses (line 335): the same expression
as `write_head`. -/
def readHeadBlock (logstart size lognum : Nat) : Nat :=
  slotStart logstart size lognum + lognum * size

/-- The disk block `write_log` and `install_trans` use for payload index
`tail` (lines 536 and 310): `log->start + tail + 1`, which puts the
payload right after a header at `start + 0`. -/
def logPayloadBlock (logstart size lognum tail : Nat) : Nat :=
  slotStart logstart size lognum + tail + 1

/-- C2 (refuting evidence): for slot 1 with `logstart = 2` and slot size
10, `write_head` and `read_head` address block 22, which is
`logstart + 2 * lognum * size`, not the slot's header block
`start + 0 = logstart + lognum * size = 12` stated by the claim and
presumed by the payload layout of `write_log`/`install_trans` (block 13
holds payload 0 of slot 1). -/
theorem write_head_wrong_block :
    writeHeadBlock 2 10 1 = 22 ∧
    readHeadBlock 2 10 1 = writeHeadBlock 2 10 1 ∧
    slotStart 2 10 1 = 12 ∧
    logPayloadBlock 2 10 1 0 = 13 ∧
    writeHeadBlock 2 10 1 ≠ slotStart 2 10 1 := by decide

end DiskLayout

namespace Admission

/-- The `begin_op` wait predicate, exactly as the source has it
(pipe_new.c line 458): `while(logs.copies_committed == 4) sleep(...)`. -/
def beginOpWaits (copies_committed : Int) : Bool := copies_committed == 4

/-- The claim's wait predicate: wait exactly when
`copies_committed == LOGCOPIES`. -/
def claimWaits (LOGCOPIES copies_committed : Int) : Bool :=
  copies_committed == LOGCOPIES

/-- C3 counterexample: for `LOGCOPIES = 2` — a value the claim
quantifies over — with all slots in commit/install
(`copies_committed = 2`), the claim says `begin_op` waits on the pool
wait-channel, but the source compares `copies_committed` against the
literal 4 and does not wait. -/
theorem begin_op_waits_on_four_not_logcopies :
    (2 : Int) ≥ 2 ∧ claimWaits 2 2 = true ∧ beginOpWaits 2 = false := by decide

/-- C3 amended: `begin_op` waits on the pool wait-channel exactly when
`copies_committed` equals the literal 4; this coincides with the
all-slots-in-commit condition `copies_committed == LOGCOPIES` exactly for
the configured `LOGCOPIES = 4`. -/
theorem begin_op_wait_condition (copies_committed : Int) :
    beginOpWaits copies_committed = claimWaits 4 copies_committed := rfl

end Admission

namespace HeadIO

/-- The on-disk image of a slot's header block: the persisted `n`, the
persisted block-number cells, the persisted `seq_nbr` field, and the
remaining bytes of the BSIZE block.  `write_head` obtains the old image
with `bread` and writes the updated image back with `bwrite`. -/
structure DiskHeader where
  n : Int
  block : Nat → Int
  seq_nbr : Int
  rest : Nat → Int

/-- The in-memory header `write_head` copies from. -/
structure MemHeader where
  n : Nat
  block : Nat → Int
  seq_nbr : Int

/-- `write_head` (pipe_new.c lines 352-369) as a transformation of the
on-disk header block: it assigns `hb->n = log->lh.n` and
`hb->block[i] = log->lh.block[i]` for `i < lh.n`, and assigns nothing
else, so every other component keeps the value `bread` returned —
in particular `hb->seq_nbr` is never assigned. -/
def write_head (lh : MemHeader) (old : DiskHeader) : DiskHeader :=
  { n := (lh.n : Int)
    block := fun i => if i < lh.n then lh.block i else old.block i
    seq_nbr := old.seq_nbr
    rest := old.rest }

/-- C10: `write_head` persists exactly the `n` field and the first `n`
entries of the block array; the cells at index ≥ n, the `seq_nbr` field
and all remaining bytes of the header block keep their previous on-disk
values.  Hence the sequence number stamped into `lh.seq_nbr` when a slot
seals (end_op, line 498) is never made durable, even though the
all-slots-committed branch of `find_first_commit` (lines 403-412) reads
`seq_nbr` back from the disk image filled in by `read_head`. -/
theorem write_head_frame (lh : MemHeader) (old : DiskHeader) :
    (write_head lh old).n = (lh.n : Int) ∧
    (∀ i, i < lh.n → (write_head lh old).block i = lh.block i) ∧
    (∀ i, lh.n ≤ i → (write_head lh old).block i = old.block i) ∧
    (write_head lh old).seq_nbr = old.seq_nbr ∧
    (∀ b, (write_head lh old).rest b = old.rest b) := by
  refine ⟨rfl, ?_, ?_, rfl, fun b => rfl⟩
  · intro i hi
    simp [write_head, hi]
  · intro i hi
    simp [write_head, Nat.not_lt.mpr hi]

/-- A concrete in-memory header with two entries. -/
def memH0 : MemHeader := ⟨2, fun _ => 7, 3⟩

/-- A concrete old on-disk header image with seq_nbr 9. -/
def diskH0 : DiskHeader := ⟨5, fun _ => 1, 9, fun _ => 0⟩

/-- Witness for C10: the written image carries n and the two entries, and
leaves cell 5, the seq_nbr field and the rest of the block as they were. -/
theorem write_head_frame_witness :
    (write_head memH0 diskH0).n = (2 : Int) ∧
    (write_head memH0 diskH0).block 0 = 7 ∧
    (write_head memH0 diskH0).block 5 = 1 ∧
    (write_head memH0 diskH0).seq_nbr = 9 ∧
    (write_head memH0 diskH0).rest 11 = 0 :=
  ⟨(write_head_frame memH0 diskH0).1,
   (write_head_frame memH0 diskH0).2.1 0 (by decide),
   (write_head_frame memH0 diskH0).2.2.1 5 (by decide),
   (write_head_frame memH0 diskH0).2.2.2.1,
   (write_head_frame memH0 diskH0).2.2.2.2 11⟩

end HeadIO
